import Mathlib

/-!
# Verification of the mycrm OCR pipeline (`src/js/ocr.js`)

A shallow embedding of the pure parts of the business-card OCR module.
JavaScript strings are modelled as lists of Unicode code points
(`List ℕ`); `Uint8ClampedArray` pixel buffers as `List ℕ`; JavaScript
numbers that take fractional values (confidences, thresholds) as `ℚ`
(the source only performs +, −, ×, / and comparisons on them, all exact
here); `null`/`undefined` as `Option`.  Each definition mirrors the
JavaScript function of the same name.
-/

namespace OCR

/-! ## Small list helpers shared by the embeddings -/

/-- Code point of a character (used to write string literals as code lists). -/
def cp (c : Char) : ℕ := c.toNat

/-- Code points of a string literal. -/
def cps (s : String) : List ℕ := s.data.map cp

/-- `Array.prototype.join('')` on code-point lists. -/
def joinAll (ls : List (List ℕ)) : List ℕ := ls.foldr (· ++ ·) []

/-- `Array.prototype.join(' ')` on code-point lists. -/
def joinSpace : List (List ℕ) → List ℕ
  | [] => []
  | [l] => l
  | l :: ls => l ++ 32 :: joinSpace ls

/-! ## `binaryUnion` (src/js/ocr.js lines 446–453)

```js
function binaryUnion(a, b) {
    const n = Math.min(a.length, b.length);
    const out = new Uint8ClampedArray(n);
    for (let i = 0; i < n; i++) {
        out[i] = (a[i] === 0 || b[i] === 0) ? 0 : 255;
    }
    return out;
}
```
The element-wise loop over the first `min` elements is `zipWith`. -/

def binaryUnion (a b : List ℕ) : List ℕ :=
  List.zipWith (fun x y => if x = 0 ∨ y = 0 then 0 else 255) a b

/-- The two-value invariant of a `BinaryMask`: every pixel is 0 or 255. -/
def isBinaryMask (a : List ℕ) : Prop := ∀ v ∈ a, v = 0 ∨ v = 255

instance (a : List ℕ) : Decidable (isBinaryMask a) := by
  unfold isBinaryMask; infer_instance

/-! ## Morphology (src/js/ocr.js lines 718–751, 643–677, 621–637)

All three filters scan every pixel `(x, y)` and combine the values of a
square window around it, clamping window coordinates to the image
(replicate border):

```js
const px = Math.min(width - 1, Math.max(0, x + kx));
const py = Math.min(height - 1, Math.max(0, y + ky));
```

`morphologyOpen` is a 3×3 erosion (running `min`, seeded 255) followed by
a 3×3 dilation (running `max`, seeded 0); `morphologyCloseK` is a k×k
dilation followed by a k×k erosion with radius `r = Math.max(1, ((k|0)-1)>>1)`;
`binaryMajority3x3` sets a pixel to 255 iff at least 5 of the 9 window
values equal 255.  Masks are flat row-major buffers of length
`height*width`, pixel `(x, y)` at index `y*width + x`. -/

/-- `Math.min(n - 1, Math.max(0, v))` as a natural index. -/
def clampCoord (n : ℕ) (v : ℤ) : ℕ := (min ((n : ℤ) - 1) (max 0 v)).toNat

/-- Window offsets `ky = -r..r`, `kx = -r..r` in source iteration order. -/
def offsets (r : ℕ) : List (ℤ × ℤ) :=
  (List.range (2 * r + 1)).flatMap fun (i : ℕ) =>
    (List.range (2 * r + 1)).map fun (j : ℕ) => ((i : ℤ) - r, (j : ℤ) - r)

/-- The clamped window values around pixel `(x, y)`. -/
def neighborVals (a : List ℕ) (w h r : ℕ) (y x : ℕ) : List ℕ :=
  (offsets r).map fun p =>
    a.getD (clampCoord h ((y : ℤ) + p.1) * w + clampCoord w ((x : ℤ) + p.2)) 0

/-- Erosion: running `min` seeded 255 over the window. -/
def erodeR (a : List ℕ) (w h r : ℕ) : List ℕ :=
  (List.range (h * w)).map fun idx =>
    (neighborVals a w h r (idx / w) (idx % w)).foldl min 255

/-- Dilation: running `max` seeded 0 over the window. -/
def dilateR (a : List ℕ) (w h r : ℕ) : List ℕ :=
  (List.range (h * w)).map fun idx =>
    (neighborVals a w h r (idx / w) (idx % w)).foldl max 0

/-- `morphologyOpen`: 3×3 erosion then 3×3 dilation. -/
def morphologyOpen (binary : List ℕ) (w h : ℕ) : List ℕ :=
  dilateR (erodeR binary w h 1) w h 1

/-- `morphologyCloseK`: k×k dilation then k×k erosion, radius
`max 1 ((k - 1) >> 1)`. -/
def morphologyCloseK (binary : List ℕ) (w h k : ℕ) : List ℕ :=
  erodeR (dilateR binary w h (max 1 ((k - 1) / 2))) w h (max 1 ((k - 1) / 2))

/-- `binaryMajority3x3`: 255 iff at least 5 of the 9 clamped window values
(incl. self) are 255. -/
def binaryMajority3x3 (input : List ℕ) (w h : ℕ) : List ℕ :=
  (List.range (h * w)).map fun idx =>
    if 5 ≤ (neighborVals input w h 1 (idx / w) (idx % w)).countP (· = 255)
    then 255 else 0

/-- Number of foreground (255) pixels of a mask. -/
def fgCount (a : List ℕ) : ℕ := a.count 255

/-! ## `otsuThreshold` (src/js/ocr.js lines 684–712)

```js
function otsuThreshold(values) {
    const histogram = new Array(256).fill(0);
    values.forEach((v) => histogram[v]++);
    const total = values.length;
    let sum = 0;
    for (let i = 0; i < 256; i++) sum += i * histogram[i];
    let sumB = 0, wB = 0, maximum = 0, threshold = 0;
    for (let i = 0; i < 256; i++) {
        wB += histogram[i];
        if (wB === 0) continue;
        const wF = total - wB;
        if (wF === 0) break;
        sumB += i * histogram[i];
        const mB = sumB / wB;
        const mF = (sum - sumB) / wF;
        const between = wB * wF * (mB - mF) * (mB - mF);
        if (between > maximum) { maximum = between; threshold = i; }
    }
    return threshold;
}
```

`histogram[v]` is `values.count v`; the `break` is modelled by a `done`
flag that freezes the state for the remaining iterations.  The fractional
arithmetic (`mB`, `mF`, `between`) is exact rational arithmetic here. -/

/-- Cumulative histogram mass strictly below `n`: `Σ_{i<n} histogram[i]`. -/
def preW (values : List ℕ) (n : ℕ) : ℕ :=
  ((List.range n).map fun i => values.count i).sum

/-- Cumulative weighted mass strictly below `n`: `Σ_{i<n} i·histogram[i]`. -/
def preS (values : List ℕ) (n : ℕ) : ℕ :=
  ((List.range n).map fun i => i * values.count i).sum

structure OtsuState where
  wB : ℕ
  sumB : ℕ
  maximum : ℚ
  threshold : ℕ
  done : Bool
deriving DecidableEq

/-- The quantity `wB·wF·(mB−mF)·(mB−mF)` computed by the loop body at
candidate `i` (with `wB`, `sumB` already incremented by bin `i`, and
`mB = sumB/wB`, `mF = (sum−sumB)/wF` inlined). -/
def otsuBetween (count : ℕ → ℕ) (total sum : ℕ) (st : OtsuState) (i : ℕ) :
    ℚ :=
  ((st.wB + count i : ℕ) : ℚ) *
    ((total : ℚ) - ((st.wB + count i : ℕ) : ℚ)) *
    (((st.sumB + i * count i : ℕ) : ℚ) / ((st.wB + count i : ℕ) : ℚ) -
      ((sum : ℚ) - ((st.sumB + i * count i : ℕ) : ℚ)) /
        ((total : ℚ) - ((st.wB + count i : ℕ) : ℚ))) *
    (((st.sumB + i * count i : ℕ) : ℚ) / ((st.wB + count i : ℕ) : ℚ) -
      ((sum : ℚ) - ((st.sumB + i * count i : ℕ) : ℚ)) /
        ((total : ℚ) - ((st.wB + count i : ℕ) : ℚ)))

/-- One iteration of the threshold-selection loop at candidate `i`:
`continue` when the cumulative mass is still zero, `break` (freeze) when
the foreground mass reaches zero, otherwise record the new maximum. -/
def otsuStep (count : ℕ → ℕ) (total sum : ℕ) (st : OtsuState) (i : ℕ) :
    OtsuState :=
  if st.done then st
  else if st.wB + count i = 0 then { st with wB := st.wB + count i }
  else if (total : ℚ) - ((st.wB + count i : ℕ) : ℚ) = 0 then
    { st with wB := st.wB + count i, done := true }
  else if st.maximum < otsuBetween count total sum st i then
    ⟨st.wB + count i, st.sumB + i * count i,
      otsuBetween count total sum st i, i, false⟩
  else ⟨st.wB + count i, st.sumB + i * count i,
      st.maximum, st.threshold, false⟩

def otsuThreshold (values : List ℕ) : ℕ :=
  ((List.range 256).foldl
    (otsuStep (fun v => values.count v) values.length (preS values 256))
    ⟨0, 0, 0, 0, false⟩).threshold

/-- The between-class variance `wB·wF·(mB−mF)²` of the 256-bin histogram
at threshold `t` (classes `≤ t` and `> t`), with the convention that an
empty class contributes variance 0 (in Lean `x / 0 = 0`). -/
def betweenVar (values : List ℕ) (t : ℕ) : ℚ :=
  let wB : ℚ := (preW values (t + 1) : ℚ)
  let wF : ℚ := (values.length : ℚ) - wB
  let mB : ℚ := (preS values (t + 1) : ℚ) / wB
  let mF : ℚ := ((preS values 256 : ℚ) - (preS values (t + 1) : ℚ)) / wF
  wB * wF * (mB - mF) * (mB - mF)

/-- Loop invariant for the maximum/threshold pair `m`, `t` after the
candidates below `n` have been examined. -/
def MaxInv (values : List ℕ) (n : ℕ) (m : ℚ) (t : ℕ) : Prop :=
  (m = 0 ∧ t = 0 ∧ ∀ j, j < n → betweenVar values j = 0) ∨
  (0 < m ∧ t < n ∧ betweenVar values t = m ∧
    (∀ j, j < n → betweenVar values j ≤ m) ∧
    (∀ j, j < t → betweenVar values j < m))

/-- Full loop invariant: a live state carries the cumulative sums; a
state frozen by `break` already satisfies the final maximum invariant. -/
def OtsuInv (values : List ℕ) (n : ℕ) (st : OtsuState) : Prop :=
  if st.done then MaxInv values 256 st.maximum st.threshold
  else st.wB = preW values n ∧ st.sumB = preS values n ∧
    MaxInv values n st.maximum st.threshold

/-! ## `normalizePhoneValue` (src/js/ocr.js lines 1428–1441)

```js
function normalizePhoneValue(value) {
    if (!value) return null;
    const digits = value.replace(/[^0-9+]/g, '');
    if (!digits) return null;
    if (digits.startsWith('+')) {
        const parts = ['+'];
        for (let i = 1; i < digits.length; i++) {
            const ch = digits[i];
            if (/\d/.test(ch)) parts.push(ch);
        }
        return parts.join('');
    }
    return digits.replace(/\D/g, '');
}
```
Code point 43 is `'+'`; 48–57 are `'0'`–`'9'`. -/

def isDigitCp (c : ℕ) : Bool := 48 ≤ c ∧ c ≤ 57

def isPhoneKeepCp (c : ℕ) : Bool := isDigitCp c || c = 43

def normalizePhoneValue (value : List ℕ) : Option (List ℕ) :=
  if value = [] then none
  else
    match value.filter isPhoneKeepCp with
    | [] => none
    | d :: rest =>
      if d = 43 then some (43 :: rest.filter isDigitCp)
      else some ((d :: rest).filter isDigitCp)

/-! ## `computeAutoCropBox` (src/js/ocr.js lines 759–815)

```js
function computeAutoCropBox(binary, width, height, opts = {}) {
    const minFrac = opts.minFrac ?? 0.35;
    const minRun = opts.minRun ?? 10;
    const pad = opts.pad ?? 8;
    // rowSum[y] = number of pixels with value 255 in row y
    // colSum[x] = number of pixels with value 255 in column x
    const rowThresh = Math.max(1, Math.floor(width * minFrac));
    const colThresh = Math.max(1, Math.floor(height * minFrac));
    function firstRunAbove(arr, thresh, runReq) {
        let run = 0;
        for (let i = 0; i < arr.length; i++) {
            if (arr[i] > thresh) { if (++run >= runReq) return i - run + 1; }
            else run = 0;
        }
        return 0;
    }
    function lastRunAbove(arr, thresh, runReq) {
        let run = 0;
        for (let i = arr.length - 1; i >= 0; i--) {
            if (arr[i] > thresh) { if (++run >= runReq) return i + run - 1; }
            else run = 0;
        }
        return arr.length - 1;
    }
    let top = firstRunAbove(rowSum, rowThresh, minRun);
    let bottom = lastRunAbove(rowSum, rowThresh, minRun);
    let left = firstRunAbove(colSum, colThresh, minRun);
    let right = lastRunAbove(colSum, colThresh, minRun);
    if (bottom <= top + 2 || right <= left + 2) return null;
    top = Math.max(0, top - pad);
    bottom = Math.min(height - 1, bottom + pad);
    left = Math.max(0, left - pad);
    right = Math.min(width - 1, right + pad);
    return { x: left, y: top, w: right - left + 1, h: bottom - top + 1 };
}
```

The run scanners return at the first moment the run counter (incremented
to `run+1`) reaches `runReq`, so the returned expressions `i - run + 1`
and `i + run - 1` equal `i - run` and `i + run` for the pre-increment
counter carried here; the backward scanner is modelled as a forward scan
of the reversed array carrying the original index `i` downward. -/

structure CropOpts where
  minFrac : ℚ
  minRun : ℕ
  pad : ℕ
deriving DecidableEq

structure CropBox where
  x : ℕ
  y : ℕ
  w : ℕ
  h : ℕ
deriving DecidableEq

def firstRunAboveGo (thresh runReq : ℕ) : List ℕ → ℕ → ℕ → Option ℕ
  | [], _, _ => none
  | a :: rest, i, run =>
    if thresh < a then
      if runReq ≤ run + 1 then some (i - run)
      else firstRunAboveGo thresh runReq rest (i + 1) (run + 1)
    else firstRunAboveGo thresh runReq rest (i + 1) 0

def firstRunAbove (arr : List ℕ) (thresh runReq : ℕ) : ℕ :=
  (firstRunAboveGo thresh runReq arr 0 0).getD 0

def lastRunAboveGo (thresh runReq : ℕ) : List ℕ → ℕ → ℕ → Option ℕ
  | [], _, _ => none
  | a :: rest, i, run =>
    if thresh < a then
      if runReq ≤ run + 1 then some (i + run)
      else lastRunAboveGo thresh runReq rest (i - 1) (run + 1)
    else lastRunAboveGo thresh runReq rest (i - 1) 0

def lastRunAbove (arr : List ℕ) (thresh runReq : ℕ) : ℕ :=
  (lastRunAboveGo thresh runReq arr.reverse (arr.length - 1) 0).getD
    (arr.length - 1)

/-- White-pixel count of each row. -/
def rowSums (binary : List ℕ) (w h : ℕ) : List ℕ :=
  (List.range h).map fun y =>
    (List.range w).countP fun x => binary.getD (y * w + x) 0 = 255

/-- White-pixel count of each column. -/
def colSums (binary : List ℕ) (w h : ℕ) : List ℕ :=
  (List.range w).map fun x =>
    (List.range h).countP fun y => binary.getD (y * w + x) 0 = 255

def computeAutoCropBox (binary : List ℕ) (w h : ℕ) (opts : CropOpts) :
    Option CropBox :=
  let rs := rowSums binary w h
  let cs := colSums binary w h
  let rowThresh := max 1 (Int.toNat ⌊(w : ℚ) * opts.minFrac⌋)
  let colThresh := max 1 (Int.toNat ⌊(h : ℚ) * opts.minFrac⌋)
  let top := firstRunAbove rs rowThresh opts.minRun
  let bottom := lastRunAbove rs rowThresh opts.minRun
  let left := firstRunAbove cs colThresh opts.minRun
  let right := lastRunAbove cs colThresh opts.minRun
  if bottom ≤ top + 2 ∨ right ≤ left + 2 then none
  else
    some ⟨left - opts.pad, top - opts.pad,
      min (w - 1) (right + opts.pad) - (left - opts.pad) + 1,
      min (h - 1) (bottom + opts.pad) - (top - opts.pad) + 1⟩

/-- No window of `runReq` consecutive entries of `arr` lies entirely above
`thresh` (the spec's "no sufficiently long run exists"). -/
def noLongRun (thresh runReq : ℕ) (arr : List ℕ) : Prop :=
  ∀ i, i + runReq ≤ arr.length → ∃ j, j < runReq ∧ arr.getD (i + j) 0 ≤ thresh

/-! ## `normalizeEmailCandidate` (src/js/ocr.js lines 40–53)

```js
function normalizeEmailCandidate(str) {
    if (!str) return '';
    let s = String(str).replace(/\s+/g, '');
    s = s.replace(/[’‘`]/g, "'").replace(/[·•]/g, '.').replace(/＠/g, '@');
    const map = { 'O': 'o', 'I': 'l', 'S': 's', 'B': 'b', 'Z': 'z', '0': 'o', '1': 'l', '5': 's' };
    s = s.split('').map(ch => map[ch] || ch).join('');
    s = s.replace(/\.{2,}/g, '.');
    s = s.replace(/[^A-Za-z0-9._%+@-]/g, '');
    return s.toLowerCase();
}
```
Each regex here acts character by character except `/\.{2,}/g`, which
collapses every maximal run of two or more dots to a single dot. -/

/-- JavaScript `\s`: space, tab, LF, VT, FF, CR, NBSP, line/paragraph
separators, BOM and the Unicode `Zs` spaces. -/
def isJsWhitespace (c : ℕ) : Bool :=
  c ∈ [32, 9, 10, 11, 12, 13, 160, 5760, 8232, 8233, 8239, 8287, 12288, 65279]
    || (8192 ≤ c && c ≤ 8202)

/-- The punctuation replacements: `’ ‘ ` ↦ '`, `· • ↦ .`, `＠ ↦ @`. -/
def emailPunctMap (c : ℕ) : ℕ :=
  if c = 8217 ∨ c = 8216 ∨ c = 96 then 39
  else if c = 183 ∨ c = 8226 then 46
  else if c = 65312 then 64
  else c

/-- The OCR-confusion map `O I S B Z 0 1 5 ↦ o l s b z o l s`. -/
def emailConfusionMap (c : ℕ) : ℕ :=
  if c = 79 then 111 else if c = 73 then 108 else if c = 83 then 115
  else if c = 66 then 98 else if c = 90 then 122 else if c = 48 then 111
  else if c = 49 then 108 else if c = 53 then 115 else c

/-- `s.replace(/\.{2,}/g, '.')`: the boolean argument records whether the
previous kept character was a dot (so further dots of the run are dropped). -/
def collapseDotsGo : List ℕ → Bool → List ℕ
  | [], _ => []
  | c :: rest, prevDot =>
    if c = 46 then
      if prevDot then collapseDotsGo rest true else 46 :: collapseDotsGo rest true
    else c :: collapseDotsGo rest false

def collapseDots (l : List ℕ) : List ℕ := collapseDotsGo l false

/-- The email token alphabet `[A-Za-z0-9._%+@-]`. -/
def isEmailAlphabet (c : ℕ) : Bool :=
  (65 ≤ c && c ≤ 90) || (97 ≤ c && c ≤ 122) || (48 ≤ c && c ≤ 57)
    || c ∈ [46, 95, 37, 43, 64, 45]

/-- `toLowerCase` (only ever applied to ASCII alphabet characters here). -/
def toLowerCp (c : ℕ) : ℕ := if 65 ≤ c ∧ c ≤ 90 then c + 32 else c

def normalizeEmailCandidate (str : List ℕ) : List ℕ :=
  if str = [] then []
  else
    ((collapseDots (((str.filter (fun c => !isJsWhitespace c)).map
      emailPunctMap).map emailConfusionMap)).filter isEmailAlphabet).map
      toLowerCp

/-- Two adjacent dots somewhere in the string. -/
def hasDoubleDot : List ℕ → Bool
  | a :: b :: rest => (a = 46 && b = 46) || hasDoubleDot (b :: rest)
  | _ => false

/-! ## Recognized-word data model (src/js/ocr.js lines 997–1087, 1327–1422)

Tesseract word objects carry an optional `text` string, an optional
`confidence` number and an optional `bbox` `{x0, y0, x1, y1}`; lines
carry an optional `text` and an optional `words` array.  A `Field` is
`{value, confidence, words, bbox}`, initialized to
`{value: null, confidence: 0, words: null, bbox: null}`. -/

structure BBox4 where
  x0 : ℚ
  y0 : ℚ
  x1 : ℚ
  y1 : ℚ
deriving DecidableEq

structure Word where
  text : Option (List ℕ)
  confidence : Option ℚ
  bbox : Option BBox4
deriving DecidableEq

structure Line where
  text : Option (List ℕ)
  words : Option (List Word)
deriving DecidableEq

structure Field where
  value : Option (List ℕ)
  confidence : ℚ
  words : Option (List Word)
  bbox : Option BBox4
deriving DecidableEq

/-- `{ value: null, confidence: 0, words: null, bbox: null }`. -/
def emptyField : Field := ⟨none, 0, none, none⟩

/-- `meanConfidence` (lines 997–1001): average of `word.confidence || 0`,
or 0 for a missing/empty array. -/
def meanConfidence (words : List Word) : ℚ :=
  if words = [] then 0
  else (words.map fun w => w.confidence.getD 0).sum / (words.length : ℚ)

/-- `summarizeWords` (lines 1007–1025): bounding box covering all words
that have a bbox; `null` when there is none (the `Infinity` seeds never
get replaced exactly when every word lacks a bbox). -/
def summarizeWords (words : List Word) : Option BBox4 :=
  if words = [] then none
  else
    match words.filterMap (fun w => w.bbox) with
    | [] => none
    | b :: bs =>
      some ⟨(bs.map BBox4.x0).foldl min b.x0, (bs.map BBox4.y0).foldl min b.y0,
        (bs.map BBox4.x1).foldl max b.x1, (bs.map BBox4.y1).foldl max b.y1⟩

/-- `String.prototype.trim()`. -/
def trimCps (l : List ℕ) : List ℕ :=
  ((l.dropWhile isJsWhitespace).reverse.dropWhile isJsWhitespace).reverse

/-! ## `EMAIL_REGEX` (line 32): `/[A-Z0-9._%+-]+@[A-Z0-9.-]+\.[A-Z]{2,}/i` -/

/-- Local-part class `[A-Z0-9._%+-]` with the `i` flag. -/
def isEmailLocalCp (c : ℕ) : Bool :=
  (65 ≤ c && c ≤ 90) || (97 ≤ c && c ≤ 122) || (48 ≤ c && c ≤ 57)
    || c ∈ [46, 95, 37, 43, 45]

/-- Domain class `[A-Z0-9.-]` with the `i` flag. -/
def isEmailDomainCp (c : ℕ) : Bool :=
  (65 ≤ c && c ≤ 90) || (97 ≤ c && c ≤ 122) || (48 ≤ c && c ≤ 57)
    || c ∈ [46, 45]

/-- TLD class `[A-Z]` with the `i` flag. -/
def isAsciiAlphaCp (c : ℕ) : Bool :=
  (65 ≤ c && c ≤ 90) || (97 ≤ c && c ≤ 122)

/-- Whether `l` as a whole is in the language of `EMAIL_REGEX`:
local-part `+`, `@`, domain `+`, `.`, letters `{2,}` (positions `ai` of
the `@` and `di` of the final dot are searched). -/
def isEmailShape (l : List ℕ) : Bool :=
  (List.range l.length).any fun ai =>
    l.getD ai 0 = 64 && 1 ≤ ai
      && ((List.range ai).all fun j => isEmailLocalCp (l.getD j 0))
      && ((List.range l.length).any fun di =>
        ai + 1 < di && l.getD di 0 = 46
          && ((List.range (di - ai - 1)).all fun j =>
            isEmailDomainCp (l.getD (ai + 1 + j) 0))
          && 2 ≤ l.length - di - 1
          && ((List.range (l.length - di - 1)).all fun j =>
            isAsciiAlphaCp (l.getD (di + 1 + j) 0)))

/-- `String.prototype.match(EMAIL_REGEX)` reduced to its matched
substring: leftmost match start, longest matching length there (`none`
exactly when no substring is in the regex's language, which is the only
fact the no-candidate paths depend on). -/
def emailFirstMatch (l : List ℕ) : Option (List ℕ) :=
  (List.range l.length).findSome? fun i =>
    ((List.range (l.length - i + 1)).reverse.findSome? fun len =>
      if isEmailShape ((l.drop i).take len) then some ((l.drop i).take len)
      else none)

/-! ## `extractEmailFromLines` (src/js/ocr.js lines 1037–1087) -/

/-- The per-line candidate: the word carrying `'@'` fixes a y-band
(`±2`px) of word centers; the band's words are joined without spaces,
normalized, and matched against `EMAIL_REGEX`.  `none` on any of the
line's `continue` paths. -/
def lineEmailCandidate (oline : Option Line) :
    Option (List ℕ × ℚ × List Word) :=
  match oline with
  | none => none
  | some line =>
    match line.words with
    | none => none
    | some ws =>
      if ws = [] then none
      else
        match ws.find? (fun w =>
          match w.text with
          | some t => t.contains 64
          | none => false) with
        | none => none
        | some atWord =>
          match atWord.bbox with
          | none => none
          | some bb =>
            let gated := ws.filter fun w =>
              match w.bbox with
              | none => false
              | some wb => decide (bb.y0 - 2 ≤ (wb.y0 + wb.y1) / 2 ∧
                  (wb.y0 + wb.y1) / 2 ≤ bb.y1 + 2)
            if gated = [] then none
            else
              match emailFirstMatch (normalizeEmailCandidate
                (joinAll (gated.map fun w => trimCps (w.text.getD [])))) with
              | none => none
              | some candidate => some (candidate, meanConfidence gated, gated)

def emailStep (best : Field) (oline : Option Line) : Field :=
  match lineEmailCandidate oline with
  | none => best
  | some (v, conf, gated) =>
    if best.confidence < conf then ⟨some v, conf, some gated, summarizeWords gated⟩
    else best

def extractEmailFromLines (lines : List (Option Line)) : Field :=
  lines.foldl emailStep emptyField

/-! ## `extractPhone` (src/js/ocr.js lines 1398–1422)

`PHONE_REGEX = /(\+\d{1,3}\s*)?[\d() -]{7,}/` — since the leading group
is optional, `regex.test(s)` holds exactly when `s` contains 7
consecutive characters of the class `[\d() -]`.

Unlike the email extractors (which guard with `(w.text || '')` at line
1065 and `typeof w.text === 'string'` at line 1045), the window join
`segment.map((w) => w.text.trim()).join(' ')` at line 1404 reads
`w.text` unguarded: on a word whose `text` is missing it throws a
TypeError.  That fallibility is embedded as `Except Unit`, with
`Except.error ()` standing for the thrown TypeError, so `extractPhone`
here returns `Except Unit Field` and aborts at the first faulty window
exactly as the JS loop does. -/

def isPhoneShapeCp (c : ℕ) : Bool := isDigitCp c || c ∈ [40, 41, 32, 45]

def phoneRegexTest (l : List ℕ) : Bool :=
  (List.range l.length).any fun i =>
    i + 7 ≤ l.length
      && ((List.range 7).all fun j => isPhoneShapeCp (l.getD (i + j) 0))

/-- `w.text.trim()` with no missing-text guard: a TypeError
(`Except.error`) when `text` is absent. -/
def jsTrimText : Option (List ℕ) → Except Unit (List ℕ)
  | none => .error ()
  | some s => .ok (trimCps s)

/-- The window of `len` words starting at `i`:
`segment.map((w) => w.text.trim()).join(' ')`, or the TypeError of the
first text-less word of the segment (the dead local `normalized` of the
source is omitted). -/
def phoneWindow (words : List Word) (i len : ℕ) : Except Unit (List ℕ) :=
  (((words.drop i).take len).mapM fun w => jsTrimText w.text).map joinSpace

def phoneWindowStep (words : List Word) (best : Field) (i len : ℕ) :
    Except Unit Field :=
  if i + len ≤ words.length then
    match phoneWindow words i len with
    | .error e => .error e
    | .ok combined =>
      if phoneRegexTest combined then
        match normalizePhoneValue (trimCps combined) with
        | none => .ok best
        | some f =>
          if f = [] then .ok best
          else if best.confidence <
              meanConfidence ((words.drop i).take len) then
            .ok ⟨some f, meanConfidence ((words.drop i).take len),
              some ((words.drop i).take len),
              summarizeWords ((words.drop i).take len)⟩
          else .ok best
      else .ok best
  else .ok best

def extractPhone (words : List Word) : Except Unit Field :=
  (List.range words.length).foldlM
    (fun best i => (List.range 6).foldlM
      (fun b l => phoneWindowStep words b i (l + 1)) best)
    emptyField

/-! ## `extractName` (src/js/ocr.js lines 1327–1348)

`uppercaseToken = /^[A-ZÀ-ÝŚŁŹŻĆŃÓ][\p{L}'’.-]*$/u`; `\p{L}` is modelled
on the Latin repertoire (ASCII letters, Latin-1 letters and Latin
Extended-A/B up to U+02C1), which covers every character the heuristics
can meet in this pipeline. -/

def isNameUpperStartCp (c : ℕ) : Bool :=
  (65 ≤ c && c ≤ 90) || (192 ≤ c && c ≤ 221)
    || c ∈ [346, 321, 377, 379, 262, 323, 211]

def isLetterCp (c : ℕ) : Bool :=
  (65 ≤ c && c ≤ 90) || (97 ≤ c && c ≤ 122) || (192 ≤ c && c ≤ 214)
    || (216 ≤ c && c ≤ 246) || (248 ≤ c && c ≤ 705)

def isNameTokenCp (c : ℕ) : Bool := isLetterCp c || c ∈ [39, 8217, 46, 45]

def isUppercaseToken (t : List ℕ) : Bool :=
  match t with
  | [] => false
  | c :: rest => isNameUpperStartCp c && rest.all isNameTokenCp

/-- The reject pattern `/[0-9@()+]/`. -/
def hasDigitAtParenPlus (l : List ℕ) : Bool :=
  l.any fun c => isDigitCp c || c ∈ [64, 40, 41, 43]

/-- `text.trim().split(/\s+/).filter(Boolean)`. -/
def splitWsGo : List ℕ → List ℕ → List (List ℕ)
  | [], acc => if acc = [] then [] else [acc.reverse]
  | c :: rest, acc =>
    if isJsWhitespace c then
      if acc = [] then splitWsGo rest [] else acc.reverse :: splitWsGo rest []
    else splitWsGo rest (c :: acc)

def splitWs (l : List ℕ) : List (List ℕ) := splitWsGo l []

/-- The per-line name candidate, `none` on any `continue` path: missing
or empty text, fewer than two tokens, a digit/`@`/paren/`+` anywhere, or
a first or second token that is not Title-case. -/
def nameCandidate (oline : Option Line) :
    Option (List (List ℕ) × ℚ × List Word) :=
  match oline with
  | none => none
  | some line =>
    match line.text with
    | none => none
    | some t =>
      if t = [] then none
      else
        let tokens := splitWs (trimCps t)
        if tokens.length < 2 then none
        else if hasDigitAtParenPlus t then none
        else if (tokens.take 2).all isUppercaseToken then
          some (tokens, meanConfidence (line.words.getD []), line.words.getD [])
        else none

def nameStep (best : Field) (oline : Option Line) : Field :=
  match nameCandidate oline with
  | none => best
  | some (tokens, conf, ws) =>
    if best.confidence < conf then
      ⟨some (trimCps (joinSpace tokens)), conf, some ws, summarizeWords ws⟩
    else best

def extractName (lines : List (Option Line)) : Field :=
  lines.foldl nameStep emptyField

/-! ## `maybeRefineLowConfidence` (src/js/ocr.js lines 1454–1495)

The Tesseract re-recognition of the padded bbox region is external I/O;
`refinedValue` stands for `refined.data.text` after the optional
`postExtract`/`postProcess` reducers and `refinedConfidence` for the mean
confidence of the refined words.  The guard on non-numeric/NaN bbox
coordinates has no counterpart here since coordinates are exact
rationals.  The decision logic is:

```js
if (!field || !field.bbox) return;
if (field.confidence >= 70 && field.value) return;
...
if (!refinedValue) return;
if (!field.value || refinedConfidence > field.confidence) {
    field.value = refinedValue;
    field.confidence = refinedConfidence;
}
```
-/

/-- JavaScript truthiness of `field.value` (`null` and `''` are falsy). -/
def fieldValueTruthy (v : Option (List ℕ)) : Bool :=
  match v with
  | none => false
  | some s => !s.isEmpty

def maybeRefineLowConfidence (field : Field) (refinedValue : List ℕ)
    (refinedConfidence : ℚ) : Field :=
  match field.bbox with
  | none => field
  | some _ =>
    if 70 ≤ field.confidence ∧ fieldValueTruthy field.value then field
    else if refinedValue = [] then field
    else if ¬fieldValueTruthy field.value ∨
        field.confidence < refinedConfidence then
      { field with
        value := some refinedValue
        confidence := refinedConfidence }
    else field

end OCR

/-! ## Theorems -/

namespace OCR

theorem binaryUnion_comm_aux (a b : List ℕ) :
    binaryUnion a b = binaryUnion b a := by
  unfold binaryUnion
  induction a generalizing b with
  | nil => cases b <;> rfl
  | cons x xs ih =>
    cases b with
    | nil => rfl
    | cons y ys =>
      simp only [List.zipWith_cons_cons, ih]
      congr 1
      by_cases hx : x = 0 <;> by_cases hy : y = 0 <;> simp [hx, hy]

theorem binaryUnion_self_aux (a : List ℕ) (h : isBinaryMask a) :
    binaryUnion a a = a := by
  unfold binaryUnion
  induction a with
  | nil => rfl
  | cons x xs ih =>
    have hx := h x (List.mem_cons_self x xs)
    have hxs : isBinaryMask xs := fun v hv => h v (List.mem_cons_of_mem x hv)
    simp only [List.zipWith_cons_cons, ih hxs]
    rcases hx with hx | hx <;> simp [hx]

/-- C4: `binaryUnion` is commutative on every pair of masks, and idempotent
on every mask satisfying the two-value (0/255) invariant. -/
theorem binaryUnion_comm_and_idem :
    (∀ a b : List ℕ, binaryUnion a b = binaryUnion b a) ∧
    (∀ a : List ℕ, isBinaryMask a → binaryUnion a a = a) :=
  ⟨binaryUnion_comm_aux, binaryUnion_self_aux⟩

/-- C4 witness: commutativity and idempotence evaluated on concrete masks. -/
theorem binaryUnion_comm_and_idem_witness :
    binaryUnion [0, 255, 7] [255, 255, 0, 9] =
      binaryUnion [255, 255, 0, 9] [0, 255, 7] ∧
    isBinaryMask [0, 255, 255, 0] ∧
    binaryUnion [0, 255, 255, 0] [0, 255, 255, 0] = [0, 255, 255, 0] :=
  ⟨binaryUnion_comm_and_idem.1 _ _, by decide,
    binaryUnion_comm_and_idem.2 _ (by decide)⟩

theorem binaryUnion_length_aux (a b : List ℕ) :
    (binaryUnion a b).length = min a.length b.length := by
  simp [binaryUnion]

theorem binaryUnion_getD_aux (a b : List ℕ) (i : ℕ)
    (hi : i < min a.length b.length) :
    (binaryUnion a b).getD i 0 =
      if a.getD i 0 = 0 ∨ b.getD i 0 = 0 then 0 else 255 := by
  rcases Nat.lt_min.mp hi with ⟨ha, hb⟩
  have hu : i < (binaryUnion a b).length := by
    rw [binaryUnion_length_aux]; exact hi
  rw [List.getD_eq_getElem _ _ hu, List.getD_eq_getElem _ _ ha,
    List.getD_eq_getElem _ _ hb]
  simp [binaryUnion]

/-- C10: `binaryUnion` is total on arbitrary byte arrays: the output length
is the minimum of the input lengths, every element is 0 or 255, and an
element is 0 exactly when the corresponding element of `a` or `b` is 0. -/
theorem binaryUnion_total_interface (a b : List ℕ) :
    (binaryUnion a b).length = min a.length b.length ∧
    isBinaryMask (binaryUnion a b) ∧
    (∀ i, i < min a.length b.length →
      ((binaryUnion a b).getD i 0 = 0 ↔ (a.getD i 0 = 0 ∨ b.getD i 0 = 0))) := by
  refine ⟨binaryUnion_length_aux a b, ?_, ?_⟩
  · intro v hv
    rcases List.mem_iff_getElem.mp hv with ⟨i, hi, rfl⟩
    simp only [binaryUnion, List.getElem_zipWith]
    split <;> simp
  · intro i hi
    rw [binaryUnion_getD_aux a b i hi]
    split <;> simp_all

/-- C10 witness: the interface facts evaluated on concrete unequal-length
inputs (length 4 and length 3). -/
theorem binaryUnion_total_interface_witness :
    (binaryUnion [0, 17, 255, 9] [3, 0, 255]).length =
      min ([0, 17, 255, 9] : List ℕ).length ([3, 0, 255] : List ℕ).length ∧
    ((1 : ℕ) < min ([0, 17, 255, 9] : List ℕ).length ([3, 0, 255] : List ℕ).length ∧
      ((binaryUnion [0, 17, 255, 9] [3, 0, 255]).getD 1 0 = 0 ↔
        (([0, 17, 255, 9] : List ℕ).getD 1 0 = 0 ∨
          (([3, 0, 255] : List ℕ).getD 1 0 = 0)))) :=
  ⟨(binaryUnion_total_interface _ _).1,
    by decide, (binaryUnion_total_interface _ _).2.2 1 (by decide)⟩

/-! ### Email normalization (C3) -/

theorem map_eq_self_of {α : Type} (f : α → α) (l : List α)
    (h : ∀ a ∈ l, f a = a) : l.map f = l := by
  induction l with
  | nil => rfl
  | cons x xs ih =>
    simp only [List.map_cons, h x (List.mem_cons_self x xs),
      ih fun a ha => h a (List.mem_cons_of_mem x ha)]

theorem hasDoubleDot_tail {a : ℕ} {l : List ℕ}
    (h : hasDoubleDot (a :: l) = false) : hasDoubleDot l = false := by
  cases l with
  | nil => rfl
  | cons b r => simp [hasDoubleDot] at h ⊢; exact h.2

theorem collapseDotsGo_eq_self (l : List ℕ) (prevDot : Bool)
    (hPrev : prevDot = true → l.head? ≠ some 46)
    (hDD : hasDoubleDot l = false) : collapseDotsGo l prevDot = l := by
  induction l generalizing prevDot with
  | nil => rfl
  | cons c rest ih =>
    by_cases hc : c = 46
    · subst hc
      have hp : prevDot = false := by
        cases prevDot with
        | true => exact absurd rfl (fun h => hPrev h (by simp))
        | false => rfl
      subst hp
      have hhead : rest.head? ≠ some 46 := by
        intro hh
        cases rest with
        | nil => simp at hh
        | cons b r =>
          simp only [List.head?_cons, Option.some.injEq] at hh
          simp [hasDoubleDot, hh] at hDD
      have hrest := ih true (fun _ => hhead) (hasDoubleDot_tail hDD)
      simp [collapseDotsGo, hrest]
    · have hrest := ih false (by simp) (hasDoubleDot_tail hDD)
      simp [collapseDotsGo, hc, hrest]

theorem collapseDots_eq_self (l : List ℕ) (h : hasDoubleDot l = false) :
    collapseDots l = l :=
  collapseDotsGo_eq_self l false (by simp) h

/-- Characters produced by the normalization pipeline are fixed points of
every character-level stage of the pipeline. -/
def emailStableChar (c : ℕ) : Prop :=
  isJsWhitespace c = false ∧ emailPunctMap c = c ∧ emailConfusionMap c = c ∧
    isEmailAlphabet c = true ∧ toLowerCp c = c

theorem emailStable_of_alpha_lower (d : ℕ) (hd : isEmailAlphabet d = true)
    (h48 : d ≠ 48) (h49 : d ≠ 49) (h53 : d ≠ 53) :
    emailStableChar (toLowerCp d) := by
  have hbounds : 37 ≤ d ∧ d ≤ 122 := by
    have hd' := hd
    simp [isEmailAlphabet] at hd'
    omega
  obtain ⟨h1, h2⟩ := hbounds
  unfold emailStableChar
  interval_cases d <;> first | omega | (revert hd; decide)

theorem collapseDotsGo_mem {c : ℕ} :
    ∀ (l : List ℕ) (b : Bool), c ∈ collapseDotsGo l b → c ∈ l := by
  intro l
  induction l with
  | nil => intro b hc; simp [collapseDotsGo] at hc
  | cons a rest ih =>
    intro b hc
    simp only [collapseDotsGo] at hc
    split_ifs at hc with ha hb
    · exact List.mem_cons_of_mem a (ih true hc)
    · rcases List.mem_cons.mp hc with h | h
      · exact h ▸ (ha ▸ List.mem_cons_self a rest)
      · exact List.mem_cons_of_mem a (ih true h)
    · rcases List.mem_cons.mp hc with h | h
      · exact h ▸ List.mem_cons_self a rest
      · exact List.mem_cons_of_mem a (ih false h)

theorem emailConfusionMap_avoids_015 (e : ℕ) :
    emailConfusionMap e ≠ 48 ∧ emailConfusionMap e ≠ 49 ∧
      emailConfusionMap e ≠ 53 := by
  unfold emailConfusionMap
  split_ifs <;> omega

theorem normalizeEmail_chars_stable (str : List ℕ) :
    ∀ c ∈ normalizeEmailCandidate str, emailStableChar c := by
  intro c hc
  unfold normalizeEmailCandidate at hc
  by_cases hs : str = []
  · simp [hs] at hc
  · simp only [if_neg hs] at hc
    rcases List.mem_map.mp hc with ⟨d, hd, rfl⟩
    have hdalpha : isEmailAlphabet d = true := List.of_mem_filter hd
    have hd4 := List.mem_of_mem_filter hd
    have hd3 := collapseDotsGo_mem _ _ hd4
    rcases List.mem_map.mp hd3 with ⟨e, _, rfl⟩
    obtain ⟨n48, n49, n53⟩ := emailConfusionMap_avoids_015 e
    exact emailStable_of_alpha_lower _ hdalpha n48 n49 n53

theorem filter_eq_self_of {α : Type} (p : α → Bool) (l : List α)
    (h : ∀ a ∈ l, p a = true) : l.filter p = l := by
  induction l with
  | nil => rfl
  | cons x xs ih =>
    simp only [List.filter_cons, h x (List.mem_cons_self x xs), if_pos,
      List.cons.injEq, true_and]
    exact ih fun a ha => h a (List.mem_cons_of_mem x ha)

/-- C3 counterexample: `normalizeEmailCandidate` is not idempotent; on the
input `".(."` the first pass produces `".."` (the dropped `'('` merges two
dots) and the second pass collapses that to `"."`. -/
theorem normalizeEmailCandidate_not_idempotent :
    normalizeEmailCandidate (normalizeEmailCandidate [46, 40, 46]) ≠
      normalizeEmailCandidate [46, 40, 46] := by decide

/-- C3 (amended): `normalizeEmailCandidate` is idempotent on every input
whose normalized form contains no two adjacent dots (a second application
can only collapse dot runs created when the character-drop stage removes a
character standing between dots). -/
theorem normalizeEmailCandidate_idempotent_of_noDoubleDot (str : List ℕ)
    (h : hasDoubleDot (normalizeEmailCandidate str) = false) :
    normalizeEmailCandidate (normalizeEmailCandidate str) =
      normalizeEmailCandidate str := by
  set y := normalizeEmailCandidate str with hy
  have hstable : ∀ c ∈ y, emailStableChar c := normalizeEmail_chars_stable str
  by_cases hnil : y = []
  · rw [hnil]; rfl
  · unfold normalizeEmailCandidate
    rw [if_neg hnil]
    have h1 : y.filter (fun c => !isJsWhitespace c) = y :=
      filter_eq_self_of _ y fun a ha => by
        rw [(hstable a ha).1]; rfl
    rw [h1]
    rw [map_eq_self_of emailPunctMap y fun a ha => (hstable a ha).2.1]
    rw [map_eq_self_of emailConfusionMap y fun a ha => (hstable a ha).2.2.1]
    rw [collapseDots_eq_self y h]
    rw [filter_eq_self_of isEmailAlphabet y fun a ha => (hstable a ha).2.2.2.1]
    exact map_eq_self_of toLowerCp y fun a ha => (hstable a ha).2.2.2.2

/-- C3 witness: idempotence holds at the concrete input `"John.Doe@EXAMPLE.com"`. -/
theorem normalizeEmailCandidate_idempotent_witness :
    hasDoubleDot (normalizeEmailCandidate (cps "John.Doe@EXAMPLE.com")) = false ∧
    normalizeEmailCandidate (normalizeEmailCandidate (cps "John.Doe@EXAMPLE.com")) =
      normalizeEmailCandidate (cps "John.Doe@EXAMPLE.com") :=
  ⟨by decide, normalizeEmailCandidate_idempotent_of_noDoubleDot _ (by decide)⟩

/-! ### Morphology (C5, C7) -/

theorem foldl_min_choice (l : List ℕ) : ∀ a : ℕ,
    l.foldl min a = a ∨ l.foldl min a ∈ l := by
  induction l with
  | nil => intro a; left; rfl
  | cons x xs ih =>
    intro a
    rw [List.foldl_cons]
    rcases ih (min a x) with h | h
    · rw [h]
      rcases min_choice a x with h' | h'
      · left; exact h'
      · right; rw [h']; exact List.mem_cons_self x xs
    · right; exact List.mem_cons_of_mem x h

theorem foldl_max_choice (l : List ℕ) : ∀ a : ℕ,
    l.foldl max a = a ∨ l.foldl max a ∈ l := by
  induction l with
  | nil => intro a; left; rfl
  | cons x xs ih =>
    intro a
    rw [List.foldl_cons]
    rcases ih (max a x) with h | h
    · rw [h]
      rcases max_choice a x with h' | h'
      · left; exact h'
      · right; rw [h']; exact List.mem_cons_self x xs
    · right; exact List.mem_cons_of_mem x h

theorem foldl_min_le_init (l : List ℕ) : ∀ a : ℕ, l.foldl min a ≤ a := by
  induction l with
  | nil => intro a; exact le_refl a
  | cons x xs ih =>
    intro a
    rw [List.foldl_cons]
    exact le_trans (ih (min a x)) (min_le_left a x)

theorem foldl_min_le_mem (l : List ℕ) : ∀ (a v : ℕ), v ∈ l →
    l.foldl min a ≤ v := by
  induction l with
  | nil => intro a v hv; cases hv
  | cons x xs ih =>
    intro a v hv
    rw [List.foldl_cons]
    rcases List.mem_cons.mp hv with h | h
    · subst h
      exact le_trans (foldl_min_le_init xs (min a v)) (min_le_right a v)
    · exact ih (min a x) v h

theorem getD_binary {a : List ℕ} (ha : isBinaryMask a) (i : ℕ) :
    a.getD i 0 = 0 ∨ a.getD i 0 = 255 := by
  by_cases hi : i < a.length
  · rw [List.getD_eq_getElem a 0 hi]
    exact ha _ (a.getElem_mem hi)
  · rw [List.getD_eq_default a 0 (Nat.le_of_not_lt hi)]
    left; rfl

theorem neighborVals_binary {a : List ℕ} (ha : isBinaryMask a)
    (w h r y x : ℕ) : ∀ v ∈ neighborVals a w h r y x, v = 0 ∨ v = 255 := by
  intro v hv
  rcases List.mem_map.mp hv with ⟨p, _, rfl⟩
  exact getD_binary ha _

theorem erodeR_binary {a : List ℕ} (ha : isBinaryMask a) (w h r : ℕ) :
    isBinaryMask (erodeR a w h r) := by
  intro v hv
  rcases List.mem_map.mp hv with ⟨idx, _, rfl⟩
  rcases foldl_min_choice (neighborVals a w h r (idx / w) (idx % w)) 255 with
    hch | hch
  · right; exact hch
  · exact neighborVals_binary ha w h r _ _ _ hch

theorem dilateR_binary {a : List ℕ} (ha : isBinaryMask a) (w h r : ℕ) :
    isBinaryMask (dilateR a w h r) := by
  intro v hv
  rcases List.mem_map.mp hv with ⟨idx, _, rfl⟩
  rcases foldl_max_choice (neighborVals a w h r (idx / w) (idx % w)) 0 with
    hch | hch
  · left; exact hch
  · exact neighborVals_binary ha w h r _ _ _ hch

theorem binaryMajority3x3_binary (a : List ℕ) (w h : ℕ) :
    isBinaryMask (binaryMajority3x3 a w h) := by
  intro v hv
  rcases List.mem_map.mp hv with ⟨idx, _, rfl⟩
  split
  · right; rfl
  · left; rfl

/-- C7: every morphology and cleanup operation preserves the two-value
(0/255) invariant: `morphologyOpen`, `morphologyCloseK` (any odd `k ≥ 3`)
and `binaryMajority3x3` map binary masks to binary masks. -/
theorem morphology_preserves_two_value (a : List ℕ) (w h k : ℕ)
    (ha : isBinaryMask a) (hk3 : 3 ≤ k) (hodd : Odd k) :
    isBinaryMask (morphologyOpen a w h) ∧
    isBinaryMask (morphologyCloseK a w h k) ∧
    isBinaryMask (binaryMajority3x3 a w h) :=
  ⟨dilateR_binary (erodeR_binary ha w h 1) w h 1,
    erodeR_binary (dilateR_binary ha w h _) w h _,
    binaryMajority3x3_binary a w h⟩

/-- C7 witness: the invariant evaluated on a concrete 2×2 mask with `k = 5`. -/
theorem morphology_preserves_two_value_witness :
    isBinaryMask [0, 255, 255, 0] ∧ (3 ≤ 5 ∧ Odd 5) ∧
    (isBinaryMask (morphologyOpen [0, 255, 255, 0] 2 2) ∧
      isBinaryMask (morphologyCloseK [0, 255, 255, 0] 2 2 5) ∧
      isBinaryMask (binaryMajority3x3 [0, 255, 255, 0] 2 2)) :=
  ⟨by decide, ⟨by decide, by decide⟩,
    morphology_preserves_two_value [0, 255, 255, 0] 2 2 5 (by decide)
      (by decide) (by decide)⟩

theorem getD_range_map (f : ℕ → ℕ) (n i : ℕ) (hi : i < n) :
    ((List.range n).map f).getD i 0 = f i := by
  rw [List.getD_eq_getElem _ 0 (by simp [hi])]
  simp

theorem rowcol_index_facts {x w : ℕ} (y : ℕ) (hx : x < w) :
    (y * w + x) / w = y ∧ (y * w + x) % w = x := by
  have hw : 0 < w := by omega
  constructor
  · rw [Nat.mul_comm y w, Nat.mul_add_div hw, Nat.div_eq_of_lt hx]
    omega
  · rw [Nat.mul_comm y w, Nat.mul_add_mod, Nat.mod_eq_of_lt hx]

theorem index_lt_of_rowcol {y x w h : ℕ} (hy : y < h) (hx : x < w) :
    y * w + x < h * w := by
  have h1 : y * w + x < (y + 1) * w := by rw [Nat.succ_mul]; omega
  have h2 : (y + 1) * w ≤ h * w := Nat.mul_le_mul_right w hy
  omega

theorem erodeR_getD (a : List ℕ) (w h r y x : ℕ) (hy : y < h) (hx : x < w) :
    (erodeR a w h r).getD (y * w + x) 0 =
      (neighborVals a w h r y x).foldl min 255 := by
  obtain ⟨hd, hm⟩ := rowcol_index_facts y hx
  rw [erodeR, getD_range_map _ _ _ (index_lt_of_rowcol hy hx), hd, hm]

theorem dilateR_getD (a : List ℕ) (w h r y x : ℕ) (hy : y < h) (hx : x < w) :
    (dilateR a w h r).getD (y * w + x) 0 =
      (neighborVals a w h r y x).foldl max 0 := by
  obtain ⟨hd, hm⟩ := rowcol_index_facts y hx
  rw [dilateR, getD_range_map _ _ _ (index_lt_of_rowcol hy hx), hd, hm]

theorem mem_offsets_bounds {p : ℤ × ℤ} {r : ℕ} (hp : p ∈ offsets r) :
    -(r : ℤ) ≤ p.1 ∧ p.1 ≤ r ∧ -(r : ℤ) ≤ p.2 ∧ p.2 ≤ r := by
  simp only [offsets, List.mem_flatMap, List.mem_map, List.mem_range] at hp
  obtain ⟨i, hi, j, hj, rfl⟩ := hp
  refine ⟨?_, ?_, ?_, ?_⟩ <;> simp <;> omega

theorem mem_offsets_one {q1 q2 : ℤ} (h1 : -1 ≤ q1) (h2 : q1 ≤ 1)
    (h3 : -1 ≤ q2) (h4 : q2 ≤ 1) : (q1, q2) ∈ offsets 1 := by
  have e1 : q1 = -1 ∨ q1 = 0 ∨ q1 = 1 := by omega
  have e2 : q2 = -1 ∨ q2 = 0 ∨ q2 = 1 := by omega
  rcases e1 with rfl | rfl | rfl <;> rcases e2 with rfl | rfl | rfl <;> decide

theorem clampCoord_lt {n : ℕ} (hn : 0 < n) (v : ℤ) : clampCoord n v < n := by
  unfold clampCoord; omega

theorem clampCoord_self {n y : ℕ} (hy : y < n) : clampCoord n (y : ℤ) = y := by
  unfold clampCoord; omega

theorem clampCoord_near {n y : ℕ} (hy : y < n) (d : ℤ) (h1 : -1 ≤ d)
    (h2 : d ≤ 1) :
    -1 ≤ ((clampCoord n ((y : ℤ) + d) : ℤ) - y) ∧
      ((clampCoord n ((y : ℤ) + d) : ℤ) - y) ≤ 1 := by
  unfold clampCoord; omega

theorem morphologyOpen_getD_le {a : List ℕ} {w h : ℕ} (ha : isBinaryMask a)
    (y x : ℕ) (hy : y < h) (hx : x < w)
    (hopen : (morphologyOpen a w h).getD (y * w + x) 0 = 255) :
    a.getD (y * w + x) 0 = 255 := by
  have hw : 0 < w := by omega
  have hh : 0 < h := by omega
  rw [morphologyOpen, dilateR_getD _ _ _ _ _ _ hy hx] at hopen
  rcases foldl_max_choice (neighborVals (erodeR a w h 1) w h 1 y x) 0 with
    hch | hch
  · rw [hopen] at hch; cases hch
  · rw [hopen] at hch
    rcases List.mem_map.mp hch with ⟨p, hp, hval⟩
    obtain ⟨hp1, hp2, hp3, hp4⟩ := mem_offsets_bounds hp
    set py := clampCoord h ((y : ℤ) + p.1) with hpy
    set px := clampCoord w ((x : ℤ) + p.2) with hpx
    have hpyh : py < h := clampCoord_lt hh _
    have hpxw : px < w := clampCoord_lt hw _
    rw [erodeR_getD a w h 1 py px hpyh hpxw] at hval
    -- (y, x) is in the clamped window around (py, px)
    obtain ⟨hd1, hd2⟩ := clampCoord_near hy p.1 hp1 hp2
    obtain ⟨hd3, hd4⟩ := clampCoord_near hx p.2 hp3 hp4
    have hq : ((y : ℤ) - py, (x : ℤ) - px) ∈ offsets 1 :=
      mem_offsets_one (by omega) (by omega) (by omega) (by omega)
    have hmem : a.getD (y * w + x) 0 ∈ neighborVals a w h 1 py px := by
      have : clampCoord h ((py : ℤ) + ((y : ℤ) - py)) = y := by
        rw [show (py : ℤ) + ((y : ℤ) - py) = (y : ℤ) by ring,
          clampCoord_self hy]
      have hxx : clampCoord w ((px : ℤ) + ((x : ℤ) - px)) = x := by
        rw [show (px : ℤ) + ((x : ℤ) - px) = (x : ℤ) by ring,
          clampCoord_self hx]
      refine List.mem_map.mpr ⟨((y : ℤ) - py, (x : ℤ) - px), hq, ?_⟩
      rw [this, hxx]
    have hle : 255 ≤ a.getD (y * w + x) 0 := by
      have := foldl_min_le_mem _ 255 _ hmem
      omega
    rcases getD_binary ha (y * w + x) with h0 | h0 <;> omega

theorem count_le_of_pointwise : ∀ l1 l2 : List ℕ, l1.length = l2.length →
    (∀ i, i < l2.length → l2.getD i 0 = 255 → l1.getD i 0 = 255) →
    l2.count 255 ≤ l1.count 255 := by
  intro l1 l2
  induction l2 generalizing l1 with
  | nil => intro _ _; simp
  | cons b bs ih =>
    intro hlen hpt
    cases l1 with
    | nil => simp at hlen
    | cons c cs =>
      have h0 := hpt 0 (by simp)
      have hshift : ∀ i, i < bs.length → bs.getD i 0 = 255 →
          cs.getD i 0 = 255 := by
        intro i hi hbi
        have := hpt (i + 1) (by simp; omega)
        simp only [List.getD_cons_succ] at this
        exact this hbi
      have hrec := ih cs (by simpa using hlen) hshift
      by_cases hb : b = 255
      · subst hb
        have hc : c = 255 := by simpa using h0 (by simp)
        subst hc
        simp only [List.count_cons, beq_iff_eq, if_pos rfl]
        omega
      · simp only [List.count_cons, beq_iff_eq]
        rw [if_neg hb]
        split <;> omega

/-- C5: morphological opening is anti-extensive on binary masks: the
foreground (255) pixel count of `morphologyOpen` output never exceeds the
input's foreground count. -/
theorem morphologyOpen_antiextensive (a : List ℕ) (w h : ℕ)
    (hlen : a.length = h * w) (ha : isBinaryMask a) :
    fgCount (morphologyOpen a w h) ≤ fgCount a := by
  unfold fgCount
  have hlen2 : a.length = (morphologyOpen a w h).length := by
    simp [morphologyOpen, dilateR, hlen]
  apply count_le_of_pointwise a (morphologyOpen a w h) hlen2
  intro i hi hopen
  have hiN : i < h * w := by
    rw [morphologyOpen, dilateR] at hi; simpa using hi
  have hw : 0 < w := by
    rcases Nat.eq_zero_or_pos w with h0 | h0
    · rw [h0, Nat.mul_zero] at hiN; omega
    · exact h0
  have hy : i / w < h := (Nat.div_lt_iff_lt_mul hw).mpr hiN
  have hx : i % w < w := Nat.mod_lt i hw
  have heq : i / w * w + i % w = i := by
    rw [Nat.mul_comm]; exact Nat.div_add_mod i w
  rw [← heq] at hopen ⊢
  exact morphologyOpen_getD_le ha (i / w) (i % w) hy hx hopen

/-- C5 witness: anti-extensivity evaluated on a concrete 2×2 mask. -/
theorem morphologyOpen_antiextensive_witness :
    ([255, 255, 0, 0] : List ℕ).length = 2 * 2 ∧
    isBinaryMask [255, 255, 0, 0] ∧
    fgCount (morphologyOpen [255, 255, 0, 0] 2 2) ≤ fgCount [255, 255, 0, 0] :=
  ⟨by decide, by decide,
    morphologyOpen_antiextensive [255, 255, 0, 0] 2 2 (by decide) (by decide)⟩

/-! ### Field-extraction misses (C8) -/

theorem foldl_eq_init {α β : Type} (f : β → α → β) (l : List α) (b : β)
    (h : ∀ x ∈ l, ∀ acc, f acc x = acc) : l.foldl f b = b := by
  induction l generalizing b with
  | nil => rfl
  | cons x xs ih =>
    rw [List.foldl_cons, h x (List.mem_cons_self x xs)]
    exact ih b fun y hy acc => h y (List.mem_cons_of_mem x hy) acc

theorem foldlM_eq_ok {α β : Type} (f : β → α → Except Unit β) (l : List α)
    (b : β) (h : ∀ x ∈ l, ∀ acc, f acc x = .ok acc) :
    l.foldlM f b = .ok b := by
  induction l generalizing b with
  | nil => rfl
  | cons x xs ih =>
    rw [List.foldlM_cons, h x (List.mem_cons_self x xs)]
    exact ih b fun y hy acc => h y (List.mem_cons_of_mem x hy) acc

theorem mapM_ok_of_forall {α β : Type} (f : α → Except Unit β) (l : List α)
    (h : ∀ x ∈ l, ∃ y, f x = .ok y) : ∃ ys, l.mapM f = .ok ys := by
  induction l with
  | nil => exact ⟨[], rfl⟩
  | cons x xs ih =>
    obtain ⟨y, hy⟩ := h x (List.mem_cons_self x xs)
    obtain ⟨ys, hys⟩ := ih fun z hz => h z (List.mem_cons_of_mem x hz)
    refine ⟨y :: ys, ?_⟩
    rw [List.mapM_cons, hy, hys]
    rfl

/-- On a words array whose words all carry text (the shape of every
`RecognizedWord`), the window join cannot throw. -/
theorem phoneWindow_ok (words : List Word) (i len : ℕ)
    (h : ∀ w ∈ words, w.text ≠ none) :
    ∃ c, phoneWindow words i len = .ok c := by
  have hall : ∀ w ∈ (words.drop i).take len, ∃ y,
      jsTrimText w.text = .ok y := by
    intro w hw
    have hmem : w ∈ words :=
      List.mem_of_mem_drop (List.mem_of_mem_take hw)
    cases htext : w.text with
    | none => exact absurd htext (h w hmem)
    | some s => exact ⟨trimCps s, rfl⟩
  obtain ⟨ys, hys⟩ := mapM_ok_of_forall (fun w => jsTrimText w.text)
    ((words.drop i).take len) hall
  refine ⟨joinSpace ys, ?_⟩
  unfold phoneWindow
  rw [hys]
  rfl

/-- C8: when no candidate is found — every line's email candidate is
`none`, every 1–6-word window of an array of text-carrying words (the
shape of every `RecognizedWord`) fails the phone-shape test, every
line's name candidate is `none` — each of `extractEmailFromLines`,
`extractPhone` and `extractName` returns the Field
`{value: null, confidence: 0}` and signals no error: the email and name
extractors are total, and `extractPhone` (whose unguarded
`w.text.trim()` is embedded as a fallible `Except`) returns
`Except.ok` on every such input. -/
theorem extract_misses_are_empty_fields :
    (∀ lines : List (Option Line),
      (∀ ol ∈ lines, lineEmailCandidate ol = none) →
      extractEmailFromLines lines = emptyField) ∧
    (∀ words : List Word,
      (∀ w ∈ words, w.text ≠ none) →
      (∀ i len, i + len ≤ words.length → 1 ≤ len → len ≤ 6 →
        ∀ c, phoneWindow words i len = .ok c → phoneRegexTest c = false) →
      extractPhone words = .ok emptyField) ∧
    (∀ lines : List (Option Line),
      (∀ ol ∈ lines, nameCandidate ol = none) →
      extractName lines = emptyField) := by
  refine ⟨?_, ?_, ?_⟩
  · intro lines hl
    apply foldl_eq_init
    intro ol hol acc
    unfold emailStep
    rw [hl ol hol]
  · intro words htext hw
    apply foldlM_eq_ok
    intro i _ acc
    apply foldlM_eq_ok
    intro l hlmem b
    unfold phoneWindowStep
    by_cases hle : i + (l + 1) ≤ words.length
    · obtain ⟨c, hc⟩ := phoneWindow_ok words i (l + 1) htext
      have ht := hw i (l + 1) hle (by omega)
        (by have := List.mem_range.mp hlmem; omega) c hc
      rw [if_pos hle, hc]
      simp [ht]
    · rw [if_neg hle]
  · intro lines hl
    apply foldl_eq_init
    intro ol hol acc
    unfold nameStep
    rw [hl ol hol]

/-- C8 witness: the three extractors evaluated on concrete inputs with no
plausible candidate (a digit-bearing two-token line with no words, and a
single all-letter word carrying text). -/
theorem extract_misses_are_empty_fields_witness :
    extractEmailFromLines [some ⟨some (cps "Hello World 123"), some []⟩] =
      emptyField ∧
    extractPhone [⟨some (cps "abc"), some 90, none⟩] = .ok emptyField ∧
    extractName [some ⟨some (cps "Hello World 123"), some []⟩] =
      emptyField := by
  refine ⟨extract_misses_are_empty_fields.1 _ ?_,
    extract_misses_are_empty_fields.2.1 _ ?_ ?_,
    extract_misses_are_empty_fields.2.2 _ ?_⟩
  · decide
  · decide
  · intro i len hle h1 h6 c hc
    have hlen : ([⟨some (cps "abc"), some 90, none⟩] : List Word).length = 1 :=
      rfl
    have hi0 : i = 0 := by omega
    have hl1 : len = 1 := by omega
    subst hi0
    subst hl1
    have he : phoneWindow [⟨some (cps "abc"), some 90, none⟩] 0 1 =
        .ok (cps "abc") := rfl
    rw [he] at hc
    rw [← Except.ok.inj hc]
    decide
  · decide

/-! ### Confidence-gated refinement (C1) -/

/-- C1 counterexample: a field with a bounding box, empty value and
confidence 5 is eligible for refinement; a refined result with non-empty
value `"x"` but confidence 3 does **not** exceed the original confidence,
yet the code accepts it (because the original value is empty), so the
field does not stay unchanged as the claim requires. -/
theorem maybeRefine_accepts_without_exceeding :
    (Field.mk none 5 none (some ⟨0, 0, 1, 1⟩)).bbox ≠ none ∧
    (Field.mk none 5 none (some ⟨0, 0, 1, 1⟩)).confidence < 70 ∧
    ([120] : List ℕ) ≠ [] ∧
    ¬((3 : ℚ) > (Field.mk none 5 none (some ⟨0, 0, 1, 1⟩)).confidence) ∧
    maybeRefineLowConfidence (Field.mk none 5 none (some ⟨0, 0, 1, 1⟩))
      [120] 3 ≠ Field.mk none 5 none (some ⟨0, 0, 1, 1⟩) := by
  decide

/-- C1 (amended): for every eligible field (bounding box present,
confidence below 70 or value empty), the refinement pass accepts the
refined value iff it is non-empty and **either the original value is
empty or** the refined confidence exceeds the original; in every other
case the field is returned unchanged. -/
theorem maybeRefine_accept_iff (field : Field) (rv : List ℕ) (rc : ℚ)
    (hbb : field.bbox ≠ none)
    (helig : field.confidence < 70 ∨ fieldValueTruthy field.value = false) :
    (rv ≠ [] →
      (fieldValueTruthy field.value = false ∨ field.confidence < rc) →
      maybeRefineLowConfidence field rv rc =
        { field with value := some rv, confidence := rc }) ∧
    ((rv = [] ∨ (fieldValueTruthy field.value = true ∧ rc ≤ field.confidence)) →
      maybeRefineLowConfidence field rv rc = field) := by
  obtain ⟨bb, hbbeq⟩ : ∃ bb, field.bbox = some bb := by
    cases h : field.bbox with
    | none => exact absurd h hbb
    | some bb => exact ⟨bb, rfl⟩
  unfold maybeRefineLowConfidence
  rw [hbbeq]
  have hgate : ¬(70 ≤ field.confidence ∧ fieldValueTruthy field.value) := by
    rintro ⟨h1, h2⟩
    rcases helig with h | h
    · linarith
    · rw [h] at h2
      exact Bool.false_ne_true h2
  rw [if_neg hgate]
  constructor
  · intro hrv hacc
    rw [if_neg hrv, if_pos ?_]
    rcases hacc with h | h
    · left
      rw [h]
      exact Bool.false_ne_true
    · right
      exact h
  · intro hret
    rcases hret with h | ⟨h1, h2⟩
    · rw [if_pos h]
    · by_cases hrv : rv = []
      · rw [if_pos hrv]
      · rw [if_neg hrv, if_neg ?_]
        rintro (hc | hc)
        · exact hc h1
        · linarith

/-- C1 witness: end-to-end scenario 2 — a field with confidence 45 and a
bounding box is refined with a non-empty value at confidence 80, and the
final field carries that value at confidence 80. -/
theorem maybeRefine_accept_iff_witness :
    maybeRefineLowConfidence
      ⟨some (cps "a@b.co"), 45, none, some ⟨0, 0, 1, 1⟩⟩ (cps "a@b.co") 80 =
      { (⟨some (cps "a@b.co"), 45, none, some ⟨0, 0, 1, 1⟩⟩ : Field) with
        value := some (cps "a@b.co")
        confidence := 80 } :=
  (maybeRefine_accept_iff _ _ _ (by decide) (by decide)).1
    (by decide) (by decide)

/-! ### Auto-crop content localization (C2) -/

theorem noLongRun_suffix (x y : List ℕ) {thresh runReq : ℕ}
    (h : noLongRun thresh runReq (x ++ y)) : noLongRun thresh runReq y := by
  intro i hi
  obtain ⟨j, hj, hle⟩ := h (x.length + i)
    (by rw [List.length_append]; omega)
  refine ⟨j, hj, ?_⟩
  rw [show x.length + i + j = x.length + (i + j) by omega,
    List.getD_append_right x y 0 _ (by omega), Nat.add_sub_cancel_left] at hle
  exact hle

theorem getD_reverse_eq (arr : List ℕ) (n : ℕ) (hn : n < arr.length) :
    arr.reverse.getD n 0 = arr.getD (arr.length - 1 - n) 0 := by
  rw [List.getD_eq_getElem _ _ (by simpa using hn), List.getElem_reverse,
    List.getD_eq_getElem _ _ (by omega)]

theorem noLongRun_reverse {thresh runReq : ℕ} {arr : List ℕ}
    (h : noLongRun thresh runReq arr) :
    noLongRun thresh runReq arr.reverse := by
  intro i hi
  rw [List.length_reverse] at hi
  obtain ⟨j, hj, hle⟩ := h (arr.length - i - runReq) (by omega)
  refine ⟨runReq - 1 - j, by omega, ?_⟩
  rw [getD_reverse_eq arr _ (by omega),
    show arr.length - 1 - (i + (runReq - 1 - j)) =
      arr.length - i - runReq + j by omega]
  exact hle

theorem firstRunAboveGo_none (thresh runReq : ℕ) :
    ∀ (l pre : List ℕ), (∀ v ∈ pre, thresh < v) →
      noLongRun thresh runReq (pre ++ l) →
      ∀ i, firstRunAboveGo thresh runReq l i pre.length = none := by
  intro l
  induction l with
  | nil => intro pre _ _ i; rfl
  | cons a rest ih =>
    intro pre hpre hnw i
    simp only [firstRunAboveGo]
    by_cases ha : thresh < a
    · rw [if_pos ha]
      by_cases hr : runReq ≤ pre.length + 1
      · exfalso
        obtain ⟨j, hj, hle⟩ := hnw (pre.length + 1 - runReq) (by
          rw [List.length_append, List.length_cons]; omega)
        have hple : pre.length + 1 - runReq + j ≤ pre.length := by omega
        by_cases hplt : pre.length + 1 - runReq + j < pre.length
        · rw [List.getD_append pre (a :: rest) 0 _ hplt,
            List.getD_eq_getElem _ _ hplt] at hle
          exact absurd hle (not_le.mpr (hpre _ (pre.getElem_mem hplt)))
        · have hpeq : pre.length + 1 - runReq + j = pre.length := by omega
          rw [hpeq, List.getD_append_right pre (a :: rest) 0 _ (le_refl _),
            Nat.sub_self, List.getD_cons_zero] at hle
          omega
      · rw [if_neg hr]
        have hpre' : ∀ v ∈ pre ++ [a], thresh < v := by
          intro v hv
          rcases List.mem_append.mp hv with h | h
          · exact hpre v h
          · rw [List.mem_singleton] at h; subst h; exact ha
        have hnw' : noLongRun thresh runReq ((pre ++ [a]) ++ rest) := by
          rwa [List.append_assoc, List.singleton_append]
        have hres := ih (pre ++ [a]) hpre' hnw' (i + 1)
        rw [List.length_append, List.length_singleton] at hres
        exact hres
    · rw [if_neg ha]
      have hs : noLongRun thresh runReq rest :=
        noLongRun_suffix (pre ++ [a]) rest
          (by rwa [List.append_assoc, List.singleton_append])
      exact ih [] (by simp) (by simpa using hs) (i + 1)

theorem lastRunAboveGo_none (thresh runReq : ℕ) :
    ∀ (l pre : List ℕ), (∀ v ∈ pre, thresh < v) →
      noLongRun thresh runReq (pre ++ l) →
      ∀ i, lastRunAboveGo thresh runReq l i pre.length = none := by
  intro l
  induction l with
  | nil => intro pre _ _ i; rfl
  | cons a rest ih =>
    intro pre hpre hnw i
    simp only [lastRunAboveGo]
    by_cases ha : thresh < a
    · rw [if_pos ha]
      by_cases hr : runReq ≤ pre.length + 1
      · exfalso
        obtain ⟨j, hj, hle⟩ := hnw (pre.length + 1 - runReq) (by
          rw [List.length_append, List.length_cons]; omega)
        have hple : pre.length + 1 - runReq + j ≤ pre.length := by omega
        by_cases hplt : pre.length + 1 - runReq + j < pre.length
        · rw [List.getD_append pre (a :: rest) 0 _ hplt,
            List.getD_eq_getElem _ _ hplt] at hle
          exact absurd hle (not_le.mpr (hpre _ (pre.getElem_mem hplt)))
        · have hpeq : pre.length + 1 - runReq + j = pre.length := by omega
          rw [hpeq, List.getD_append_right pre (a :: rest) 0 _ (le_refl _),
            Nat.sub_self, List.getD_cons_zero] at hle
          omega
      · rw [if_neg hr]
        have hpre' : ∀ v ∈ pre ++ [a], thresh < v := by
          intro v hv
          rcases List.mem_append.mp hv with h | h
          · exact hpre v h
          · rw [List.mem_singleton] at h; subst h; exact ha
        have hnw' : noLongRun thresh runReq ((pre ++ [a]) ++ rest) := by
          rwa [List.append_assoc, List.singleton_append]
        have hres := ih (pre ++ [a]) hpre' hnw' (i - 1)
        rw [List.length_append, List.length_singleton] at hres
        exact hres
    · rw [if_neg ha]
      have hs : noLongRun thresh runReq rest :=
        noLongRun_suffix (pre ++ [a]) rest
          (by rwa [List.append_assoc, List.singleton_append])
      exact ih [] (by simp) (by simpa using hs) (i - 1)

theorem firstRunAbove_of_noLongRun {arr : List ℕ} {thresh runReq : ℕ}
    (h : noLongRun thresh runReq arr) : firstRunAbove arr thresh runReq = 0 := by
  unfold firstRunAbove
  rw [show firstRunAboveGo thresh runReq arr 0 0 = none from
    firstRunAboveGo_none thresh runReq arr [] (by simp) (by simpa using h) 0]
  rfl

theorem lastRunAbove_of_noLongRun {arr : List ℕ} {thresh runReq : ℕ}
    (h : noLongRun thresh runReq arr) :
    lastRunAbove arr thresh runReq = arr.length - 1 := by
  unfold lastRunAbove
  rw [show lastRunAboveGo thresh runReq arr.reverse (arr.length - 1) 0 = none
    from lastRunAboveGo_none thresh runReq arr.reverse [] (by simp)
      (by simpa using noLongRun_reverse h) (arr.length - 1)]
  rfl

/-- C2 counterexample: on the all-black 4×4 mask (no row or column count
above any threshold) `computeAutoCropBox` does not return `null`; both run
scanners fall back to the full index range and the bail-out test fails
because width and height exceed 3. -/
theorem computeAutoCropBox_no_content_not_none :
    computeAutoCropBox (List.replicate 16 0) 4 4 ⟨0.35, 10, 8⟩ ≠ none := by
  decide

/-- C2 (amended): for every binary mask with width > 3 and height > 3 in
which no row's and no column's white-pixel count stays above the density
threshold for a sufficiently long run, `computeAutoCropBox` returns the
full-image box `{x: 0, y: 0, w: width, h: height}` (so the caller crops to
the entire scaled image, leaving its content unchanged); `null` is
returned only when the derived extent collapses (`bottom ≤ top+2` or
`right ≤ left+2`), which the defaulted full range rules out here. -/
theorem computeAutoCropBox_no_run_full_box (binary : List ℕ)
    (w h minRun pad : ℕ) (minFrac : ℚ) (hw : 3 < w) (hh : 3 < h)
    (hrow : noLongRun (max 1 (Int.toNat ⌊(w : ℚ) * minFrac⌋)) minRun
      (rowSums binary w h))
    (hcol : noLongRun (max 1 (Int.toNat ⌊(h : ℚ) * minFrac⌋)) minRun
      (colSums binary w h)) :
    computeAutoCropBox binary w h ⟨minFrac, minRun, pad⟩ =
      some ⟨0, 0, w, h⟩ := by
  have hrslen : (rowSums binary w h).length = h := by simp [rowSums]
  have hcslen : (colSums binary w h).length = w := by simp [colSums]
  have htop := firstRunAbove_of_noLongRun hrow
  have hbot := lastRunAbove_of_noLongRun hrow
  have hleft := firstRunAbove_of_noLongRun hcol
  have hright := lastRunAbove_of_noLongRun hcol
  rw [hrslen] at hbot
  rw [hcslen] at hright
  simp only [computeAutoCropBox, htop, hbot, hleft, hright]
  rw [if_neg (by omega)]
  congr 1
  have e1 : min (w - 1) (w - 1 + pad) = w - 1 := by omega
  have e2 : min (h - 1) (h - 1 + pad) = h - 1 := by omega
  simp only [Nat.zero_sub, e1, e2]
  congr 1 <;> omega

/-- C2 witness: the amended statement evaluated on the all-black 4×4 mask
with the caller's options (minFrac 0.35, minRun 10, pad 8). -/
theorem computeAutoCropBox_no_run_full_box_witness :
    computeAutoCropBox (List.replicate 16 0) 4 4 ⟨0.35, 10, 8⟩ =
      some ⟨0, 0, 4, 4⟩ := by
  have hrow : noLongRun (max 1 (Int.toNat ⌊(4 : ℚ) * 0.35⌋)) 10
      (rowSums (List.replicate 16 0) 4 4) := by
    intro i hi
    have hlen : (rowSums (List.replicate 16 0) 4 4).length = 4 := by decide
    omega
  have hcol : noLongRun (max 1 (Int.toNat ⌊(4 : ℚ) * 0.35⌋)) 10
      (colSums (List.replicate 16 0) 4 4) := by
    intro i hi
    have hlen : (colSums (List.replicate 16 0) 4 4).length = 4 := by decide
    omega
  exact computeAutoCropBox_no_run_full_box (List.replicate 16 0) 4 4 10 8
    0.35 (by omega) (by omega) hrow hcol

/-! ### Otsu threshold selection (C6) -/

theorem preW_succ (values : List ℕ) (n : ℕ) :
    preW values (n + 1) = preW values n + values.count n := by
  simp [preW, List.range_succ]

theorem preS_succ (values : List ℕ) (n : ℕ) :
    preS values (n + 1) = preS values n + n * values.count n := by
  simp [preS, List.range_succ]

theorem countP_lt_succ (values : List ℕ) (k : ℕ) :
    values.countP (fun v => v < k + 1) =
      values.countP (fun v => v < k) + values.count k := by
  induction values with
  | nil => rfl
  | cons a l ih =>
    simp only [List.countP_cons, List.count_cons, ih]
    by_cases h1 : a < k
    · have h1' : a < k + 1 := by omega
      have h2 : ¬a = k := by omega
      simp [h1, h1', h2]
      omega
    · by_cases h2 : a = k
      · subst h2
        simp [Nat.lt_irrefl, Nat.lt_succ_self]
        omega
      · have h1' : ¬a < k + 1 := by omega
        simp [h1, h1', h2]

theorem preW_eq_countP (values : List ℕ) (k : ℕ) :
    preW values k = values.countP (fun v => v < k) := by
  induction k with
  | zero =>
    simp only [preW, List.range_zero, List.map_nil, List.sum_nil]
    exact (List.countP_eq_zero.mpr (by intro a _; simp)).symm
  | succ n ih => rw [preW_succ, ih, countP_lt_succ]

theorem preW_le_length (values : List ℕ) (k : ℕ) :
    preW values k ≤ values.length := by
  rw [preW_eq_countP]; exact List.countP_le_length _

theorem preW_mono (values : List ℕ) {m k : ℕ} (h : m ≤ k) :
    preW values m ≤ preW values k := by
  have step : ∀ d, preW values m ≤ preW values (m + d) := by
    intro d
    induction d with
    | zero => simp
    | succ d ih =>
      rw [show m + (d + 1) = (m + d) + 1 by omega, preW_succ]
      omega
  have hd := step (k - m)
  rwa [show m + (k - m) = k by omega] at hd

theorem betweenVar_nonneg (values : List ℕ) (t : ℕ) :
    0 ≤ betweenVar values t := by
  have key : ∀ a b c : ℚ, 0 ≤ a → 0 ≤ b → 0 ≤ a * b * c * c := by
    intro a b c ha hb
    have h1 : a * b * c * c = (a * b) * (c * c) := by ring
    rw [h1]
    exact mul_nonneg (mul_nonneg ha hb) (mul_self_nonneg c)
  have h2 : (0 : ℚ) ≤ (values.length : ℚ) - (preW values (t + 1) : ℚ) := by
    have h := preW_le_length values (t + 1)
    have h' : (preW values (t + 1) : ℚ) ≤ (values.length : ℚ) := by
      exact_mod_cast h
    linarith
  simp only [betweenVar]
  exact key _ _ _ (by positivity) h2

theorem betweenVar_zero_of_wB (values : List ℕ) (j : ℕ)
    (h : preW values (j + 1) = 0) : betweenVar values j = 0 := by
  simp [betweenVar, h]

theorem betweenVar_zero_of_full (values : List ℕ) (j : ℕ)
    (h : preW values (j + 1) = values.length) : betweenVar values j = 0 := by
  simp [betweenVar, h]

theorem MaxInv_extend {values : List ℕ} {n : ℕ} {m : ℚ} {t : ℕ}
    (hmax : MaxInv values n m t) (hle : betweenVar values n ≤ m) :
    MaxInv values (n + 1) m t := by
  rcases hmax with ⟨h1, h2, h3⟩ | ⟨h1, h2, h3, h4, h5⟩
  · left
    refine ⟨h1, h2, fun j hj => ?_⟩
    rcases Nat.lt_succ_iff_lt_or_eq.mp hj with h | rfl
    · exact h3 j h
    · have hnn := betweenVar_nonneg values j
      rw [h1] at hle
      linarith
  · right
    refine ⟨h1, Nat.lt_succ_of_lt h2, h3, fun j hj => ?_, h5⟩
    rcases Nat.lt_succ_iff_lt_or_eq.mp hj with h | rfl
    · exact h4 j h
    · exact hle

theorem MaxInv_extend_zero {values : List ℕ} {n k : ℕ} {m : ℚ} {t : ℕ}
    (hmax : MaxInv values n m t) (hnk : n ≤ k)
    (hz : ∀ j, n ≤ j → j < k → betweenVar values j = 0) :
    MaxInv values k m t := by
  rcases hmax with ⟨h1, h2, h3⟩ | ⟨h1, h2, h3, h4, h5⟩
  · left
    refine ⟨h1, h2, fun j hj => ?_⟩
    by_cases hjn : j < n
    · exact h3 j hjn
    · exact hz j (by omega) hj
  · right
    refine ⟨h1, by omega, h3, fun j hj => ?_, h5⟩
    by_cases hjn : j < n
    · exact h4 j hjn
    · rw [hz j (by omega) hj]
      exact le_of_lt h1

theorem MaxInv_nonneg {values : List ℕ} {n : ℕ} {m : ℚ} {t : ℕ}
    (hmax : MaxInv values n m t) : 0 ≤ m := by
  rcases hmax with ⟨h1, _, _⟩ | ⟨h1, _, _, _, _⟩
  · rw [h1]
  · exact le_of_lt h1

theorem otsuBetween_eq (values : List ℕ) (n : ℕ) (st : OtsuState)
    (hwB : st.wB = preW values n) (hsumB : st.sumB = preS values n) :
    otsuBetween (fun v => values.count v) values.length (preS values 256)
      st n = betweenVar values n := by
  simp only [otsuBetween, betweenVar, hwB, hsumB, ← preW_succ, ← preS_succ]

theorem otsuStep_inv (values : List ℕ) (n : ℕ) (hn : n < 256)
    (st : OtsuState) (hinv : OtsuInv values n st) :
    OtsuInv values (n + 1)
      (otsuStep (fun v => values.count v) values.length (preS values 256)
        st n) := by
  by_cases hdone : st.done = true
  · rw [show otsuStep (fun v => values.count v) values.length
        (preS values 256) st n = st by simp [otsuStep, hdone]]
    unfold OtsuInv at hinv ⊢
    rw [if_pos hdone] at hinv ⊢
    exact hinv
  · unfold OtsuInv at hinv
    rw [if_neg hdone] at hinv
    obtain ⟨hwB, hsumB, hmax⟩ := hinv
    by_cases h0 : st.wB + values.count n = 0
    · -- continue: cumulative mass still zero
      rw [show otsuStep (fun v => values.count v) values.length
          (preS values 256) st n = { st with wB := st.wB + values.count n }
          by simp [otsuStep, hdone, h0]]
      unfold OtsuInv
      rw [if_neg (by simpa using hdone)]
      have hcount : values.count n = 0 := by omega
      refine ⟨by simp [preW_succ, hwB], ?_, ?_⟩
      · simp only
        rw [hsumB, preS_succ, hcount]
        omega
      · have hz : betweenVar values n = 0 :=
          betweenVar_zero_of_wB values n (by rw [preW_succ, ← hwB]; omega)
        exact MaxInv_extend hmax (by rw [hz]; exact MaxInv_nonneg hmax)
    · by_cases hF : (values.length : ℚ) -
          ((st.wB + values.count n : ℕ) : ℚ) = 0
      · -- break: foreground class exhausted
        have hF' : (values.length : ℚ) -
            ((st.wB : ℚ) + ((values.count n : ℕ) : ℚ)) = 0 := by
          push_cast at hF
          linarith
        rw [show otsuStep (fun v => values.count v) values.length
            (preS values 256) st n =
            { st with wB := st.wB + values.count n, done := true }
            by simp [otsuStep, hdone, h0, hF']]
        unfold OtsuInv
        rw [if_pos rfl]
        have htot : st.wB + values.count n = values.length := by
          have h1 : ((st.wB + values.count n : ℕ) : ℚ) =
              (values.length : ℚ) := by
            push_cast
            linarith
          exact_mod_cast h1
        refine MaxInv_extend_zero hmax (by omega) fun j hnj hj => ?_
        apply betweenVar_zero_of_full
        have h1 : preW values (n + 1) = values.length := by
          rw [preW_succ, ← hwB]; exact htot
        have h2 : preW values (n + 1) ≤ preW values (j + 1) :=
          preW_mono values (by omega)
        have h3 : preW values (j + 1) ≤ values.length :=
          preW_le_length values (j + 1)
        omega
      · -- live: evaluate the between-class variance at candidate n
        have hbtw := otsuBetween_eq values n st hwB hsumB
        have hF' : ¬(values.length : ℚ) -
            ((st.wB : ℚ) + ((values.count n : ℕ) : ℚ)) = 0 := by
          intro hc
          apply hF
          push_cast
          linarith
        by_cases hcmp : st.maximum < otsuBetween (fun v => values.count v)
            values.length (preS values 256) st n
        · rw [show otsuStep (fun v => values.count v) values.length
              (preS values 256) st n =
              ⟨st.wB + values.count n, st.sumB + n * values.count n,
                otsuBetween (fun v => values.count v) values.length
                  (preS values 256) st n, n, false⟩
              by simp [otsuStep, hdone, h0, hF', hcmp]]
          unfold OtsuInv
          rw [if_neg (by simp)]
          refine ⟨by simp [preW_succ, hwB], by simp [preS_succ, hsumB], ?_⟩
          right
          have hm0 : (0 : ℚ) ≤ st.maximum := MaxInv_nonneg hmax
          refine ⟨lt_of_le_of_lt hm0 hcmp, Nat.lt_succ_self n, hbtw.symm,
            ?_, ?_⟩
          · intro j hj
            rcases Nat.lt_succ_iff_lt_or_eq.mp hj with h | rfl
            · rcases hmax with ⟨h1, _, h3⟩ | ⟨_, _, _, h4, _⟩
              · rw [h3 j h]
                have := betweenVar_nonneg values n
                rw [← hbtw] at this
                simpa using this
              · exact le_of_lt (lt_of_le_of_lt (h4 j h) hcmp)
            · simp [← hbtw]
          · intro j hj
            rcases hmax with ⟨h1, _, h3⟩ | ⟨_, _, _, h4, _⟩
            · rw [h3 j hj]
              rw [h1] at hcmp
              simpa using hcmp
            · exact lt_of_le_of_lt (h4 j hj) hcmp
        · rw [show otsuStep (fun v => values.count v) values.length
              (preS values 256) st n =
              ⟨st.wB + values.count n, st.sumB + n * values.count n,
                st.maximum, st.threshold, false⟩
              by simp [otsuStep, hdone, h0, hF', hcmp]]
          unfold OtsuInv
          rw [if_neg (by simp)]
          refine ⟨by simp [preW_succ, hwB], by simp [preS_succ, hsumB], ?_⟩
          exact MaxInv_extend hmax (by rw [← hbtw]; exact le_of_not_lt hcmp)

theorem otsuFold_inv (values : List ℕ) (n : ℕ) (hn : n ≤ 256) :
    OtsuInv values n ((List.range n).foldl
      (otsuStep (fun v => values.count v) values.length (preS values 256))
      ⟨0, 0, 0, 0, false⟩) := by
  induction n with
  | zero =>
    unfold OtsuInv
    rw [List.range_zero, List.foldl_nil, if_neg (by simp)]
    exact ⟨by simp [preW], by simp [preS],
      Or.inl ⟨rfl, rfl, fun j hj => absurd hj (Nat.not_lt_zero j)⟩⟩
  | succ n ih =>
    rw [List.range_succ, List.foldl_append, List.foldl_cons, List.foldl_nil]
    exact otsuStep_inv values n (by omega) _ (ih (by omega))

set_option maxRecDepth 4096 in
/-- C6: `otsuThreshold` returns a threshold in `[0, 255]` that maximizes
the between-class variance `wB·wF·(mB−mF)²` of the 256-bin histogram, and
among the thresholds attaining the maximum it returns the lowest one
(every strictly smaller threshold has strictly smaller variance). -/
theorem otsuThreshold_maximizes (values : List ℕ) (hne : values ≠ [])
    (hval : ∀ v ∈ values, v ≤ 255) :
    otsuThreshold values ≤ 255 ∧
    (∀ i, i ≤ 255 →
      betweenVar values i ≤ betweenVar values (otsuThreshold values)) ∧
    (∀ i, i < otsuThreshold values →
      betweenVar values i < betweenVar values (otsuThreshold values)) := by
  have hinv := otsuFold_inv values 256 (le_refl 256)
  set st := (List.range 256).foldl
    (otsuStep (fun v => values.count v) values.length (preS values 256))
    ⟨0, 0, 0, 0, false⟩ with hst
  unfold OtsuInv at hinv
  have hthr : otsuThreshold values = st.threshold := rfl
  rw [hthr]
  have hmax : MaxInv values 256 st.maximum st.threshold := by
    by_cases hdone : st.done = true
    · rwa [if_pos hdone] at hinv
    · rw [if_neg hdone] at hinv
      exact hinv.2.2
  rcases hmax with ⟨h1, h2, h3⟩ | ⟨h1, h2, h3, h4, h5⟩
  · rw [h2]
    refine ⟨by omega, fun i hi => ?_, fun i hi => absurd hi (by omega)⟩
    rw [h3 i (by omega), h3 0 (by omega)]
  · refine ⟨by omega, fun i hi => ?_, fun i hi => ?_⟩
    · rw [h3]; exact h4 i (by omega)
    · rw [h3]; exact h5 i hi

/-- C6 witness: the maximality facts evaluated at the concrete input
`[10, 10, 200, 200, 200]` (whose selected threshold is 10). -/
theorem otsuThreshold_maximizes_witness :
    ([10, 10, 200, 200, 200] : List ℕ) ≠ [] ∧
    (∀ v ∈ ([10, 10, 200, 200, 200] : List ℕ), v ≤ 255) ∧
    (otsuThreshold [10, 10, 200, 200, 200] ≤ 255 ∧
      (∀ i, i ≤ 255 → betweenVar [10, 10, 200, 200, 200] i ≤
        betweenVar [10, 10, 200, 200, 200]
          (otsuThreshold [10, 10, 200, 200, 200])) ∧
      (∀ i, i < otsuThreshold [10, 10, 200, 200, 200] →
        betweenVar [10, 10, 200, 200, 200] i <
        betweenVar [10, 10, 200, 200, 200]
          (otsuThreshold [10, 10, 200, 200, 200]))) :=
  ⟨by decide, by decide,
    otsuThreshold_maximizes [10, 10, 200, 200, 200] (by decide) (by decide)⟩

/-! ### Phone normalization (C9) -/

theorem isPhoneKeep_of_isDigit {c : ℕ} (h : isDigitCp c = true) :
    isPhoneKeepCp c = true := by
  simp [isPhoneKeepCp, h]

theorem filter_keep_filter_digit (v : List ℕ) :
    (v.filter isPhoneKeepCp).filter isDigitCp = v.filter isDigitCp := by
  induction v with
  | nil => rfl
  | cons a rest ih =>
    by_cases hd : isDigitCp a = true
    · simp [List.filter_cons, hd, isPhoneKeep_of_isDigit hd, ih]
    · rw [Bool.not_eq_true] at hd
      by_cases hk : isPhoneKeepCp a = true
      · simp [List.filter_cons, hd, hk, ih]
      · rw [Bool.not_eq_true] at hk
        simp [List.filter_cons, hd, hk, ih]

/-- C9: `normalizePhoneValue` keeps exactly the digit characters of its
input, prefixed with `'+'` exactly when the first kept (`[0-9+]`) character
of the input is `'+'`; it returns `none` only when the input has no
`[0-9+]` character at all.  In particular `"+1 (555) 123-4567"` normalizes
to `"+15551234567"` and `"555.123.4567"` to `"5551234567"`. -/
theorem normalizePhoneValue_digits_only :
    (∀ v : List ℕ,
      normalizePhoneValue v =
        if v.filter isPhoneKeepCp = [] then none
        else some ((if (v.filter isPhoneKeepCp).head? = some 43 then [43]
          else []) ++ v.filter isDigitCp)) ∧
    normalizePhoneValue (cps "+1 (555) 123-4567") = some (cps "+15551234567") ∧
    normalizePhoneValue (cps "555.123.4567") = some (cps "5551234567") := by
  refine ⟨fun v => ?_, by decide, by decide⟩
  by_cases hv : v = []
  · subst hv; rfl
  · unfold normalizePhoneValue
    rw [if_neg hv]
    cases hf : v.filter isPhoneKeepCp with
    | nil => simp
    | cons d rest =>
      have hfd : (d :: rest).filter isDigitCp = v.filter isDigitCp := by
        rw [← hf, filter_keep_filter_digit]
      by_cases hd : d = 43
      · subst hd
        have h43 : isDigitCp 43 = false := by decide
        rw [← hfd]
        simp [List.filter_cons, h43]
      · simp [hd, hfd]

end OCR
